import Mathlib

/-!
Verification of the genji query-matcher core and table buffer.

The Go sources under verification are the `query` package (predicate
matchers with the dual `Match` / `MatchIndex` evaluation modes), the SQL
SELECT parser, and `table/table.go` (`RecordBuffer`).  The repository
snapshot ships the tests and `table/table.go`; the bodies of the `query`
package, the parser and the `field` encoders are reconstructed here from
the specification (each such definition carries a `Modelled from the
spec:` note), and are validated against the concrete scenarios of
`query/matcher_test.go` and `select_test.go`.
-/

namespace Genji

/-- Encoded byte strings (index keys, row ids) are modelled as lists of
natural numbers; lexicographic order on these lists is the order bbolt
and google/btree use on `[]byte`. -/
abbrev Bytes := List Nat

/-- Strict lexicographic order on byte strings, the order used by
`bytes.Compare` on encoded keys and row ids. -/
def blt : Bytes → Bytes → Bool
  | [], [] => false
  | [], _ :: _ => true
  | _ :: _, [] => false
  | a :: as, b :: bs => if a < b then true else if b < a then false else blt as bs

theorem blt_irrefl (x : Bytes) : blt x x = false := by
  induction x with
  | nil => rfl
  | cons a as ih => simp [blt, ih]

theorem blt_asymm : ∀ x y : Bytes, blt x y = true → blt y x = false := by
  intro x
  induction x with
  | nil => intro y _; cases y with
    | nil => simp_all [blt]
    | cons b bs => rfl
  | cons a as ih =>
    intro y h
    cases y with
    | nil => simp [blt] at h
    | cons b bs =>
      simp only [blt] at h ⊢
      rcases Nat.lt_trichotomy a b with hab | hab | hab
      · simp [hab, Nat.not_lt.mpr (Nat.le_of_lt hab)]
      · subst hab
        simp only [lt_irrefl, if_false] at h ⊢
        exact ih bs h
      · simp [hab, Nat.not_lt.mpr (Nat.le_of_lt hab)] at h

theorem blt_connex : ∀ x y : Bytes, blt x y = false → blt y x = false → x = y := by
  intro x
  induction x with
  | nil => intro y hxy _; cases y with
    | nil => rfl
    | cons b bs => simp [blt] at hxy
  | cons a as ih =>
    intro y hxy hyx
    cases y with
    | nil => simp [blt] at hyx
    | cons b bs =>
      simp only [blt] at hxy hyx
      rcases Nat.lt_trichotomy a b with hab | hab | hab
      · simp [hab] at hxy
      · subst hab
        simp only [lt_irrefl, if_false] at hxy hyx
        exact congrArg (a :: ·) (ih bs hxy hyx)
      · simp [hab] at hyx

theorem blt_trans : ∀ x y z : Bytes, blt x y = true → blt y z = true → blt x z = true := by
  intro x
  induction x with
  | nil =>
    intro y z hxy hyz
    cases y with
    | nil => simp [blt] at hxy
    | cons b bs =>
      cases z with
      | nil => simp [blt] at hyz
      | cons c cs => rfl
  | cons a as ih =>
    intro y z hxy hyz
    cases y with
    | nil => simp [blt] at hxy
    | cons b bs =>
      cases z with
      | nil => simp [blt] at hyz
      | cons c cs =>
        simp only [blt] at hxy hyz ⊢
        rcases Nat.lt_trichotomy a b with hab | hab | hab
        · rcases Nat.lt_trichotomy b c with hbc | hbc | hbc
          · simp [Nat.lt_trans hab hbc]
          · subst hbc; simp [hab]
          · simp [hbc, Nat.not_lt.mpr (Nat.le_of_lt hbc)] at hyz
        · subst hab
          simp only [lt_irrefl, if_false] at hxy
          rcases Nat.lt_trichotomy a c with hac | hac | hac
          · simp [hac]
          · subst hac
            simp only [lt_irrefl, if_false] at hyz ⊢
            exact ih bs cs hxy hyz
          · simp [hac, Nat.not_lt.mpr (Nat.le_of_lt hac)] at hyz
        · simp [hab, Nat.not_lt.mpr (Nat.le_of_lt hab)] at hxy

/-- Big-endian base-256 digits of `n`, padded to width `L`.  `beBytes L n`
is the byte string `[n / 256^(L-1), ...]`; for `n < 256^L` every entry is
below 256. -/
def beBytes : Nat → Nat → Bytes
  | 0, _ => []
  | L + 1, n => n / 256 ^ L :: beBytes L (n % 256 ^ L)

theorem beBytes_order (L : Nat) : ∀ n m : Nat, n < 256 ^ L → m < 256 ^ L →
    (blt (beBytes L n) (beBytes L m) = true ↔ n < m) := by
  induction L with
  | zero =>
    intro n m hn hm
    simp only [pow_zero, Nat.lt_one_iff] at hn hm
    subst hn; subst hm
    simp [beBytes, blt]
  | succ L ih =>
    intro n m hn hm
    have hp : 0 < 256 ^ L := Nat.pos_pow_of_pos L (by norm_num)
    have hnd : n = 256 ^ L * (n / 256 ^ L) + n % 256 ^ L := (Nat.div_add_mod n (256 ^ L)).symm
    have hmd : m = 256 ^ L * (m / 256 ^ L) + m % 256 ^ L := (Nat.div_add_mod m (256 ^ L)).symm
    have hnm : n % 256 ^ L < 256 ^ L := Nat.mod_lt _ hp
    have hmm : m % 256 ^ L < 256 ^ L := Nat.mod_lt _ hp
    simp only [beBytes, blt]
    rcases Nat.lt_trichotomy (n / 256 ^ L) (m / 256 ^ L) with hq | hq | hq
    · simp only [hq, if_true, true_iff]
      calc n < 256 ^ L * (n / 256 ^ L) + 256 ^ L := by omega
        _ = 256 ^ L * (n / 256 ^ L + 1) := by ring
        _ ≤ 256 ^ L * (m / 256 ^ L) := Nat.mul_le_mul_left _ hq
        _ ≤ m := by omega
    · have hbd : 256 ^ L * (n / 256 ^ L) = 256 ^ L * (m / 256 ^ L) := by rw [hq]
      rw [hq]
      simp only [lt_irrefl, if_false]
      rw [ih (n % 256 ^ L) (m % 256 ^ L) hnm hmm]
      omega
    · have : m < n := by
        calc m < 256 ^ L * (m / 256 ^ L) + 256 ^ L := by omega
          _ = 256 ^ L * (m / 256 ^ L + 1) := by ring
          _ ≤ 256 ^ L * (n / 256 ^ L) := Nat.mul_le_mul_left _ hq
          _ ≤ n := by omega
      simp [Nat.not_lt.mpr (Nat.le_of_lt hq), hq, Nat.not_lt.mpr (Nat.le_of_lt this)]

/-- Modelled from the spec: `field.EncodeInt64` (the `field` codec package
is not in the snapshot).  "Integer encodings flip the sign bit so negative
values sort before positive": the signed value is shifted into `[0, 2^64)`
and written as 8 big-endian bytes, an order-preserving encoding. -/
def encodeInt64 (i : Int) : Bytes :=
  beBytes 8 (Int.toNat (i + 2 ^ 63))

/-- An `Int` representable as a Go `int64`. -/
def ValidInt (i : Int) : Prop := -(2 ^ 63) ≤ i ∧ i < 2 ^ 63

instance (i : Int) : Decidable (ValidInt i) := by unfold ValidInt; infer_instance

theorem encodeInt64_lt {a b : Int} (ha : ValidInt a) (hb : ValidInt b) :
    (blt (encodeInt64 a) (encodeInt64 b) = true ↔ a < b) := by
  obtain ⟨ha1, ha2⟩ := ha
  obtain ⟨hb1, hb2⟩ := hb
  have hra : Int.toNat (a + 2 ^ 63) < 256 ^ 8 := by
    have : (256 : Nat) ^ 8 = 2 ^ 64 := by norm_num
    omega
  have hrb : Int.toNat (b + 2 ^ 63) < 256 ^ 8 := by
    have : (256 : Nat) ^ 8 = 2 ^ 64 := by norm_num
    omega
  rw [encodeInt64, encodeInt64, beBytes_order 8 _ _ hra hrb]
  omega

theorem encodeInt64_inj {a b : Int} (ha : ValidInt a) (hb : ValidInt b)
    (h : encodeInt64 a = encodeInt64 b) : a = b := by
  by_contra hne
  rcases lt_or_gt_of_ne hne with hlt | hlt
  · have := (encodeInt64_lt ha hb).mpr hlt
    rw [h, blt_irrefl] at this
    exact Bool.false_ne_true this
  · have := (encodeInt64_lt hb ha).mpr hlt
    rw [h, blt_irrefl] at this
    exact Bool.false_ne_true this

/-- The strict-order predicate used for row-id sets. -/
def bltP (a b : Bytes) : Prop := blt a b = true

/-- Ordered insertion into a strictly sorted list of row ids, skipping
duplicates.  This is the extensional behaviour of
`btree.ReplaceOrInsert` with `Less` given by `bytes.Compare`. -/
def insertList (x : Bytes) : List Bytes → List Bytes
  | [] => [x]
  | y :: ys => if blt x y then x :: y :: ys else if blt y x then y :: insertList x ys else y :: ys

theorem mem_insertList (x a : Bytes) : ∀ l : List Bytes,
    (a ∈ insertList x l ↔ a = x ∨ a ∈ l) := by
  intro l
  induction l with
  | nil => simp [insertList]
  | cons y ys ih =>
    simp only [insertList]
    by_cases hxy : blt x y = true
    · rw [if_pos hxy]
      simp only [List.mem_cons]
    · rw [if_neg hxy]
      by_cases hyx : blt y x = true
      · rw [if_pos hyx]
        simp only [List.mem_cons, ih]
        tauto
      · rw [if_neg hyx]
        have hxeq : x = y :=
          blt_connex x y (Bool.of_not_eq_true hxy) (Bool.of_not_eq_true hyx)
        subst hxeq
        simp only [List.mem_cons]
        tauto

theorem pairwise_insertList (x : Bytes) : ∀ l : List Bytes,
    l.Pairwise bltP → (insertList x l).Pairwise bltP := by
  intro l
  induction l with
  | nil => intro _; exact List.pairwise_singleton _ _
  | cons y ys ih =>
    intro hp
    rw [List.pairwise_cons] at hp
    obtain ⟨hy, hys⟩ := hp
    simp only [insertList]
    by_cases hxy : blt x y = true
    · rw [if_pos hxy]
      rw [List.pairwise_cons]
      refine ⟨?_, List.pairwise_cons.mpr ⟨hy, hys⟩⟩
      intro b hb
      rcases List.mem_cons.mp hb with hb | hb
      · subst hb; exact hxy
      · exact blt_trans x y b hxy (hy b hb)
    · rw [if_neg hxy]
      by_cases hyx : blt y x = true
      · rw [if_pos hyx]
        rw [List.pairwise_cons]
        refine ⟨?_, ih hys⟩
        intro b hb
        rcases (mem_insertList x b ys).mp hb with hb | hb
        · subst hb; exact hyx
        · exact hy b hb
      · rw [if_neg hyx]
        exact List.pairwise_cons.mpr ⟨hy, hys⟩

/-- Sort a list of row ids into a strictly-increasing (hence
deduplicated) list by repeated ordered insertion. -/
def sortBytes : List Bytes → List Bytes
  | [] => []
  | x :: xs => insertList x (sortBytes xs)

theorem pairwise_sortBytes : ∀ l : List Bytes, (sortBytes l).Pairwise bltP := by
  intro l
  induction l with
  | nil => exact List.Pairwise.nil
  | cons x xs ih => exact pairwise_insertList x _ ih

theorem mem_sortBytes (a : Bytes) : ∀ l : List Bytes, (a ∈ sortBytes l ↔ a ∈ l) := by
  intro l
  induction l with
  | nil => simp [sortBytes]
  | cons x xs ih => simp [sortBytes, mem_insertList, ih]

/-- An ordered, deduplicated set of row ids: the model of the
`*btree.BTree` of `query.Item` values that `MatchIndex` returns.  The
`sorted` field is the ordering invariant the btree structure maintains. -/
structure RBSet where
  l : List Bytes
  sorted : l.Pairwise bltP

/-- The empty row-id set. -/
def RBSet.empty : RBSet := ⟨[], List.Pairwise.nil⟩

/-- Insert one row id. -/
def RBSet.insert (s : RBSet) (x : Bytes) : RBSet :=
  ⟨insertList x s.l, pairwise_insertList x s.l s.sorted⟩

/-- Build a row-id set from an arbitrarily ordered list of row ids. -/
def RBSet.ofList (l : List Bytes) : RBSet :=
  ⟨sortBytes l, pairwise_sortBytes l⟩

theorem RBSet.mem_ofList (a : Bytes) (l : List Bytes) :
    a ∈ (RBSet.ofList l).l ↔ a ∈ l := mem_sortBytes a l

/-- Intersection of two row-id sets. -/
def RBSet.inter (s t : RBSet) : RBSet :=
  ⟨s.l.filter (fun x => decide (x ∈ t.l)), List.Pairwise.filter _ s.sorted⟩

theorem RBSet.mem_inter (a : Bytes) (s t : RBSet) :
    a ∈ (s.inter t).l ↔ a ∈ s.l ∧ a ∈ t.l := by
  simp [RBSet.inter, List.mem_filter]

/-- Union of two row-id sets. -/
def RBSet.union (s t : RBSet) : RBSet := RBSet.ofList (s.l ++ t.l)

theorem RBSet.mem_union (a : Bytes) (s t : RBSet) :
    a ∈ (s.union t).l ↔ a ∈ s.l ∨ a ∈ t.l := by
  simp [RBSet.union, RBSet.mem_ofList]

/-- Intersection of a non-empty list of row-id sets (the And combinator's
fold); the empty case is never reached by the combinator and yields the
empty set. -/
def interList : List RBSet → RBSet
  | [] => RBSet.empty
  | s :: rest => rest.foldl RBSet.inter s

theorem mem_foldl_inter (a : Bytes) : ∀ (l : List RBSet) (acc : RBSet),
    (a ∈ (l.foldl RBSet.inter acc).l ↔ a ∈ acc.l ∧ ∀ t ∈ l, a ∈ t.l) := by
  intro l
  induction l with
  | nil => intro acc; simp
  | cons s rest ih =>
    intro acc
    simp only [List.foldl_cons, ih, RBSet.mem_inter, List.mem_cons]
    constructor
    · rintro ⟨⟨h1, h2⟩, h3⟩
      refine ⟨h1, ?_⟩
      intro t ht
      rcases ht with ht | ht
      · subst ht; exact h2
      · exact h3 t ht
    · rintro ⟨h1, h3⟩
      exact ⟨⟨h1, h3 s (Or.inl rfl)⟩, fun t ht => h3 t (Or.inr ht)⟩

theorem mem_interList (a : Bytes) (s : RBSet) (rest : List RBSet) :
    a ∈ (interList (s :: rest)).l ↔ a ∈ s.l ∧ ∀ t ∈ rest, a ∈ t.l := by
  simp [interList, mem_foldl_inter]

/-- Union of a list of row-id sets (the Or combinator's fold); the union
of an empty list is the empty set. -/
def unionList (l : List RBSet) : RBSet := l.foldl RBSet.union RBSet.empty

theorem mem_foldl_union (a : Bytes) : ∀ (l : List RBSet) (acc : RBSet),
    (a ∈ (l.foldl RBSet.union acc).l ↔ a ∈ acc.l ∨ ∃ t ∈ l, a ∈ t.l) := by
  intro l
  induction l with
  | nil => intro acc; simp
  | cons s rest ih =>
    intro acc
    simp only [List.foldl_cons, ih, RBSet.mem_union, List.mem_cons]
    constructor
    · rintro (⟨h | h⟩ | ⟨t, ht, h⟩)
      · exact Or.inl h
      · exact Or.inr ⟨s, Or.inl rfl, h⟩
      · exact Or.inr ⟨t, Or.inr ht, h⟩
    · rintro (h | ⟨t, ht | ht, h⟩)
      · exact Or.inl (Or.inl h)
      · subst ht; exact Or.inl (Or.inr h)
      · exact Or.inr ⟨t, ht, h⟩

theorem mem_unionList (a : Bytes) (l : List RBSet) :
    a ∈ (unionList l).l ↔ ∃ t ∈ l, a ∈ t.l := by
  simp [unionList, mem_foldl_union, RBSet.empty]

/-- Modelled from the spec: the scalar field values the matcher compares.
The spec's closed set is int64/uint64/float32/float64/bytes; the claims
and the repository's tests exercise the int64 and byte-string (text)
leaves, which are the two variants modelled here. -/
inductive Value where
  | vInt (i : Int)
  | vStr (b : Bytes)
deriving DecidableEq

/-- Type tags of field values. -/
inductive Typ where
  | tInt
  | tStr
deriving DecidableEq

def Value.typeOf : Value → Typ
  | .vInt _ => .tInt
  | .vStr _ => .tStr

/-- A value representable in the Go scalar types (int64 range for
integers). -/
def ValidValue : Value → Prop
  | .vInt i => ValidInt i
  | .vStr _ => True

instance (v : Value) : Decidable (ValidValue v) := by
  cases v <;> unfold ValidValue <;> infer_instance

/-- Modelled from the spec: the order-preserving codec
(`field.EncodeInt64` and the identity encoding for byte strings). -/
def encodeValue : Value → Bytes
  | .vInt i => encodeInt64 i
  | .vStr b => b

/-- A record is a list of named fields; `record.field(name)` resolves to
the first field with that name. -/
abbrev Rec := List (String × Value)

def recField (r : Rec) (name : String) : Option Value :=
  match r with
  | [] => none
  | (n, v) :: rest => if n = name then some v else recField rest name

/-- The five comparison operators of the comparator leaves. -/
inductive Op where
  | eq
  | gt
  | gte
  | lt
  | lte
deriving DecidableEq

/-- Comparison of a decoded field value `v` against the leaf's literal
`lit` under `op`, numerically for integers and lexicographically for byte
strings (both arguments are assumed type-checked equal already). -/
def valueCmp (op : Op) (v lit : Value) : Bool :=
  match v, lit with
  | .vInt a, .vInt b =>
    match op with
    | .eq => a == b
    | .gt => b < a
    | .gte => b ≤ a
    | .lt => a < b
    | .lte => a ≤ b
  | .vStr a, .vStr b =>
    match op with
    | .eq => a == b
    | .gt => blt b a
    | .gte => !(blt a b)
    | .lt => blt a b
    | .lte => !(blt b a)
  | _, _ => false

/-- An index is an ordered key→row-id multimap; it is modelled by its
list of (encoded key, row id) entries.  Iteration order over the real
bbolt bucket is ascending on key bytes and is recovered here by the
ordered row-id set the scan accumulates into. -/
abbrev Index := List (Bytes × Bytes)

/-- The field-name → index map passed to `MatchIndex`. -/
abbrev IndexMap := List (String × Index)

def imLookup (im : IndexMap) (name : String) : Option Index :=
  match im with
  | [] => none
  | (n, idx) :: rest => if n = name then some idx else imLookup rest name

/-- Inclusion rule of the index walk of §4.2, per operator, for an entry
key `k` against the encoded literal `e`:
EQ keeps `k = e`, GT keeps `k > e`, GTE keeps `k ≥ e`, LT keeps `k < e`,
LTE keeps `k ≤ e`, lexicographically on encoded bytes. -/
def keySat (op : Op) (e k : Bytes) : Bool :=
  match op with
  | .eq => k == e
  | .gt => blt e k
  | .gte => !(blt k e)
  | .lt => blt k e
  | .lte => !(blt e k)

/-- Modelled from the spec: the index range-scan adapter (§4.6).  It
walks the index's entries, keeps those whose key satisfies the inclusion
rule for `op`, and accumulates their row ids into a fresh ordered set;
extensionally this is a filter of the multimap's entries. -/
def scan (idx : Index) (op : Op) (e : Bytes) : RBSet :=
  RBSet.ofList (idx.filterMap fun p => if keySat op e p.1 then some p.2 else none)

theorem mem_scan (r : Bytes) (idx : Index) (op : Op) (e : Bytes) :
    r ∈ (scan idx op e).l ↔ ∃ k, (k, r) ∈ idx ∧ keySat op e k = true := by
  rw [scan, RBSet.mem_ofList, List.mem_filterMap]
  constructor
  · rintro ⟨⟨k, r'⟩, hmem, hif⟩
    by_cases h : keySat op e k = true
    · rw [if_pos h] at hif
      cases hif
      exact ⟨k, hmem, h⟩
    · rw [if_neg h] at hif
      cases hif
  · rintro ⟨k, hmem, h⟩
    exact ⟨(k, r), hmem, by rw [if_pos h]⟩

/-- Errors surfaced by `Match` / `MatchIndex`: a type mismatch on a
present field, or an error propagated verbatim from a child matcher or
the index layer (tagged to keep distinct errors distinguishable). -/
inductive Err where
  | typeMismatch (fname : String)
  | external (tag : Nat)
deriving DecidableEq

/-- An externally supplied matcher, as permitted by the Go `Matcher`
interface: it always implements `Match`; it implements `MatchIndex` only
when `matchIndexFn` is `some` (the combinators discover this by type
assertion, modelled by the `Option`).  The test's `simpleMatcher` is such
a matcher with `matchIndexFn = none`. -/
structure ExtMatcher where
  matchFn : Rec → Except Err Bool
  matchIndexFn : Option (IndexMap → Except Err (Option RBSet))

/-- The predicate tree: comparator leaves, the n-ary And/Or combinators,
and external matchers supplied through the `Matcher` interface. -/
inductive Expr where
  | cmp (fname : String) (op : Op) (lit : Value)
  | and (cs : List Expr)
  | or (cs : List Expr)
  | ext (m : ExtMatcher)

/-- Modelled from the spec: the And combinator's combination step.
`os` are the children's `MatchIndex` results.  If no child was
index-backed the And is not index-backed (`none`); if every child was
index-backed the result is the intersection of their sets; otherwise the
conservative `some empty`. -/
def combineAnd (os : List (Option RBSet)) : Option RBSet :=
  let backed := os.filterMap id
  if backed.length = 0 then none
  else if backed.length = os.length then some (interList backed)
  else some RBSet.empty

/-- Modelled from the spec: the Or combinator's combination step.  If any
child is not index-backed the result is the conservative `some empty`;
otherwise the union of the children's sets (empty for no children). -/
def combineOr (os : List (Option RBSet)) : Option RBSet :=
  if os.any (fun o => o.isNone) then some RBSet.empty
  else some (unionList (os.filterMap id))

mutual

/-- Modelled from the spec: `Match` (§4.1, §4.2, §4.4).  A comparator
leaf resolves its field — absent field gives `(false, nil)`, a present
field of the wrong type gives a type-mismatch error, otherwise the
comparison result.  And/Or evaluate children left-to-right,
short-circuiting and propagating the first error. -/
def matchExprE : Expr → Rec → Except Err Bool
  | .cmp fname op lit, r =>
    match recField r fname with
    | none => .ok false
    | some v =>
      if v.typeOf = lit.typeOf then .ok (valueCmp op v lit)
      else .error (.typeMismatch fname)
  | .and cs, r => matchAndL cs r
  | .or cs, r => matchOrL cs r
  | .ext m, r => m.matchFn r

/-- Left-to-right conjunction loop: first error or first `false` wins. -/
def matchAndL : List Expr → Rec → Except Err Bool
  | [], _ => .ok true
  | c :: rest, r =>
    match matchExprE c r with
    | .error e => .error e
    | .ok false => .ok false
    | .ok true => matchAndL rest r

/-- Left-to-right disjunction loop: first error or first `true` wins. -/
def matchOrL : List Expr → Rec → Except Err Bool
  | [], _ => .ok false
  | c :: rest, r =>
    match matchExprE c r with
    | .error e => .error e
    | .ok true => .ok true
    | .ok false => matchOrL rest r

end

mutual

/-- Modelled from the spec: `MatchIndex` (§4.1, §4.2, §4.4).  A leaf
looks its field up in the index map — absent means not index-backed
(`none`) — and otherwise range-scans the index with the encoded literal.
And/Or evaluate all children left-to-right, propagate the first error,
and combine the children's optional sets. -/
def matchIndexE : Expr → IndexMap → Except Err (Option RBSet)
  | .cmp fname op lit, im =>
    match imLookup im fname with
    | none => .ok none
    | some idx => .ok (some (scan idx op (encodeValue lit)))
  | .and cs, im =>
    match matchIndexL cs im with
    | .error e => .error e
    | .ok os => .ok (combineAnd os)
  | .or cs, im =>
    match matchIndexL cs im with
    | .error e => .error e
    | .ok os => .ok (combineOr os)
  | .ext m, im =>
    match m.matchIndexFn with
    | none => .ok none
    | some f => f im

/-- Left-to-right evaluation of the children's `MatchIndex`, stopping at
the first error. -/
def matchIndexL : List Expr → IndexMap → Except Err (List (Option RBSet))
  | [], _ => .ok []
  | c :: rest, im =>
    match matchIndexE c im with
    | .error e => .error e
    | .ok o =>
      match matchIndexL rest im with
      | .error e => .error e
      | .ok os => .ok (o :: os)

end

theorem bool_eq_of_iff {a b : Bool} (h : a = true ↔ b = true) : a = b := by
  cases a <;> cases b <;> simp_all

theorem filterMap_id_map_some {α : Type} (l : List α) :
    (l.map some).filterMap id = l := by
  induction l with
  | nil => rfl
  | cons x xs ih => simp [ih]

theorem any_isNone_map_some {α : Type} (l : List α) :
    ((l.map some).any fun o => o.isNone) = false := by
  induction l with
  | nil => rfl
  | cons x xs ih => simp [ih]

/-- The comparison the index scan performs on encoded keys agrees with
the comparison `Match` performs on decoded values: the codec is
order-preserving. -/
theorem keySat_encode (op : Op) (v lit : Value) (hv : ValidValue v) (hl : ValidValue lit)
    (ht : v.typeOf = lit.typeOf) :
    keySat op (encodeValue lit) (encodeValue v) = valueCmp op v lit := by
  cases v with
  | vInt a =>
    cases lit with
    | vInt b =>
      cases op
      · apply bool_eq_of_iff
        simp only [keySat, valueCmp, encodeValue, beq_iff_eq]
        exact ⟨fun h => encodeInt64_inj hv hl h, fun h => by rw [h]⟩
      · apply bool_eq_of_iff
        simp only [keySat, valueCmp, encodeValue, decide_eq_true_eq]
        exact encodeInt64_lt hl hv
      · apply bool_eq_of_iff
        simp only [keySat, valueCmp, encodeValue, Bool.not_eq_true',
          decide_eq_true_eq]
        rw [← Bool.not_eq_true, encodeInt64_lt hv hl]
        omega
      · apply bool_eq_of_iff
        simp only [keySat, valueCmp, encodeValue, decide_eq_true_eq]
        exact encodeInt64_lt hv hl
      · apply bool_eq_of_iff
        simp only [keySat, valueCmp, encodeValue, Bool.not_eq_true',
          decide_eq_true_eq]
        rw [← Bool.not_eq_true, encodeInt64_lt hl hv]
        omega
    | vStr b => simp [Value.typeOf] at ht
  | vStr a =>
    cases lit with
    | vInt b => simp [Value.typeOf] at ht
    | vStr b => cases op <;> rfl

mutual

/-- The predicate tree is fully index-backed under `im`: every leaf is a
comparator whose field has an index and whose literal is a representable
scalar, And nodes have at least one child, and no external matchers
appear. -/
def IndexBacked (im : IndexMap) : Expr → Prop
  | .cmp f _ lit => (∃ idx, imLookup im f = some idx) ∧ ValidValue lit
  | .and cs => cs ≠ [] ∧ IndexBackedL im cs
  | .or cs => IndexBackedL im cs
  | .ext _ => False

def IndexBackedL (im : IndexMap) : List Expr → Prop
  | [] => True
  | c :: rest => IndexBacked im c ∧ IndexBackedL im rest

end

mutual

/-- Every comparator leaf whose field is present on `R` finds a value of
the leaf's expected type (so `Match` never raises a type mismatch). -/
def TypesAgree (R : Rec) : Expr → Prop
  | .cmp f _ lit => ∀ v, recField R f = some v → v.typeOf = lit.typeOf
  | .and cs => TypesAgreeL R cs
  | .or cs => TypesAgreeL R cs
  | .ext _ => True

def TypesAgreeL (R : Rec) : List Expr → Prop
  | [] => True
  | c :: rest => TypesAgree R c ∧ TypesAgreeL R rest

end

/-- `im` faithfully indexes the record `R` stored under row id `rid`:
for every indexed field, the entries carrying `rid` are exactly the
encoding of `R`'s value for that field (no entries when the field is
absent from `R`), and that value is a representable scalar. -/
def TypedFaithful (im : IndexMap) (R : Rec) (rid : Bytes) : Prop :=
  ∀ f idx, imLookup im f = some idx →
    match recField R f with
    | some v => ValidValue v ∧ ∀ k, ((k, rid) ∈ idx ↔ k = encodeValue v)
    | none => ∀ k, (k, rid) ∉ idx

mutual

/-- Semantic equivalence on fully index-backed trees: `MatchIndex`
returns `some S` and `Match` returns exactly the membership of the
record's row id in `S`. -/
theorem c1Equiv (P : Expr) (im : IndexMap) (R : Rec) (rid : Bytes)
    (hb : IndexBacked im P) (ht : TypesAgree R P) (hf : TypedFaithful im R rid) :
    ∃ S : RBSet, matchIndexE P im = .ok (some S) ∧
      matchExprE P R = .ok (decide (rid ∈ S.l)) := by
  cases P with
  | cmp f op lit =>
    obtain ⟨⟨idx, hidx⟩, hvlit⟩ := hb
    refine ⟨scan idx op (encodeValue lit), ?_, ?_⟩
    · simp [matchIndexE, hidx]
    · have hfa := hf f idx hidx
      cases hr : recField R f with
      | none =>
        rw [hr] at hfa
        have hnot : ¬ rid ∈ (scan idx op (encodeValue lit)).l := by
          rw [mem_scan]
          rintro ⟨k, hk, -⟩
          exact hfa k hk
        simp [matchExprE, hr, decide_eq_false hnot]
      | some v =>
        rw [hr] at hfa
        obtain ⟨hvv, hkey⟩ := hfa
        have htyp : v.typeOf = lit.typeOf := ht v hr
        have hmem : rid ∈ (scan idx op (encodeValue lit)).l ↔
            valueCmp op v lit = true := by
          rw [mem_scan]
          constructor
          · rintro ⟨k, hk, hsat⟩
            rw [(hkey k).mp hk] at hsat
            rw [← keySat_encode op v lit hvv hvlit htyp]
            exact hsat
          · intro hcmp
            refine ⟨encodeValue v, (hkey _).mpr rfl, ?_⟩
            rw [keySat_encode op v lit hvv hvlit htyp]
            exact hcmp
        have : decide (rid ∈ (scan idx op (encodeValue lit)).l) = valueCmp op v lit := by
          apply bool_eq_of_iff
          rw [decide_eq_true_eq]
          exact hmem
        simp [matchExprE, hr, htyp, this]
  | and cs =>
    obtain ⟨hne, hbl⟩ := hb
    obtain ⟨Ss, hlen, hidx, hand, hor⟩ := c1EquivL cs im R rid hbl ht hf
    cases Ss with
    | nil => exact absurd (List.length_eq_zero.mp hlen.symm) hne
    | cons S0 Srest =>
      refine ⟨interList (S0 :: Srest), ?_, ?_⟩
      · simp only [matchIndexE, hidx, combineAnd, filterMap_id_map_some]
        have h1 : (S0 :: Srest).length ≠ 0 := by simp
        have h2 : (S0 :: Srest).length = ((S0 :: Srest).map some).length := by simp
        rw [if_neg h1, if_pos (by simp)]
      · rw [matchExprE, hand]
        congr 1
        apply bool_eq_of_iff
        rw [List.all_eq_true, decide_eq_true_eq, mem_interList]
        constructor
        · intro h
          refine ⟨?_, ?_⟩
          · have := h S0 (List.mem_cons_self _ _)
            rwa [decide_eq_true_eq] at this
          · intro t htm
            have := h t (List.mem_cons_of_mem _ htm)
            rwa [decide_eq_true_eq] at this
        · rintro ⟨h0, hrest⟩
          intro t htm
          rw [decide_eq_true_eq]
          rcases List.mem_cons.mp htm with h | h
          · subst h; exact h0
          · exact hrest t h
  | or cs =>
    obtain ⟨Ss, hlen, hidx, hand, hor⟩ := c1EquivL cs im R rid hb ht hf
    refine ⟨unionList Ss, ?_, ?_⟩
    · simp only [matchIndexE, hidx, combineOr, any_isNone_map_some, Bool.false_eq_true,
        if_false, filterMap_id_map_some]
    · rw [matchExprE, hor]
      congr 1
      apply bool_eq_of_iff
      rw [List.any_eq_true, decide_eq_true_eq, mem_unionList]
      constructor
      · rintro ⟨t, htm, hdec⟩
        rw [decide_eq_true_eq] at hdec
        exact ⟨t, htm, hdec⟩
      · rintro ⟨t, htm, hmem⟩
        exact ⟨t, htm, by rw [decide_eq_true_eq]; exact hmem⟩
  | ext m => exact absurd hb (by simp [IndexBacked])

/-- List version of `c1Equiv` for the children of a combinator. -/
theorem c1EquivL (cs : List Expr) (im : IndexMap) (R : Rec) (rid : Bytes)
    (hb : IndexBackedL im cs) (ht : TypesAgreeL R cs) (hf : TypedFaithful im R rid) :
    ∃ Ss : List RBSet, Ss.length = cs.length ∧
      matchIndexL cs im = .ok (Ss.map some) ∧
      matchAndL cs R = .ok (Ss.all fun S => decide (rid ∈ S.l)) ∧
      matchOrL cs R = .ok (Ss.any fun S => decide (rid ∈ S.l)) := by
  cases cs with
  | nil => exact ⟨[], rfl, rfl, rfl, rfl⟩
  | cons c rest =>
    obtain ⟨hbc, hbr⟩ := hb
    obtain ⟨htc, htr⟩ := ht
    obtain ⟨S, hSi, hSm⟩ := c1Equiv c im R rid hbc htc hf
    obtain ⟨Ss, hlen, hidx, hand, hor⟩ := c1EquivL rest im R rid hbr htr hf
    refine ⟨S :: Ss, by simp [hlen], ?_, ?_, ?_⟩
    · rw [matchIndexL, hSi, hidx]
      rfl
    · rw [matchAndL, hSm]
      cases hd : decide (rid ∈ S.l) with
      | false => simp [hd]
      | true => rw [hand]; simp [hd]
    · rw [matchOrL, hSm]
      cases hd : decide (rid ∈ S.l) with
      | false => rw [hor]; simp [hd]
      | true => simp [hd]

end

/-! Concrete fixtures mirroring `query/matcher_test.go`: the `age` index
`{1→z, 2→y, 2→x, 3→a, 5→b, 10→c}` and the `team` index
`{ACA→x, LOSC→a, OL→z, OM→b, OM→y, PSG→c}`, with row ids the ASCII bytes
of the single-letter names. -/

def ageIdx : Index :=
  [(encodeInt64 1, [122]), (encodeInt64 2, [121]), (encodeInt64 2, [120]),
   (encodeInt64 3, [97]), (encodeInt64 5, [98]), (encodeInt64 10, [99])]

def teamIdx : Index :=
  [([65, 67, 65], [120]), ([76, 79, 83, 67], [97]), ([79, 76], [122]),
   ([79, 77], [98]), ([79, 77], [121]), ([80, 83, 71], [99])]

def imTest : IndexMap := [("age", ageIdx), ("team", teamIdx)]

/-- The test's `simpleMatcher`: always matches, does not implement the
index-matching interface. -/
def simpleTrue : ExtMatcher := ⟨fun _ => .ok true, none⟩

/-- An external matcher whose `MatchIndex` fails, exercising error
propagation from a child. -/
def extFail (tag : Nat) : ExtMatcher :=
  ⟨fun _ => .ok true, some (fun _ => .error (.external tag))⟩

theorem matchIndexL_append_error (im : IndexMap) (c : Expr) (post : List Expr)
    (e : Err) (he : matchIndexE c im = .error e) :
    ∀ pre : List Expr, (∀ c' ∈ pre, ∃ o, matchIndexE c' im = .ok o) →
      matchIndexL (pre ++ c :: post) im = .error e := by
  intro pre
  induction pre with
  | nil =>
    intro _
    rw [List.nil_append, matchIndexL, he]
  | cons p rest ih =>
    intro hok
    obtain ⟨o, ho⟩ := hok p (List.mem_cons_self _ _)
    rw [List.cons_append, matchIndexL, ho,
      ih (fun c' hc' => hok c' (List.mem_cons_of_mem _ hc'))]

theorem matchIndexL_ok_of_children (im : IndexMap) :
    ∀ cs : List Expr, (∀ c ∈ cs, ∃ o, matchIndexE c im = .ok o) →
      ∃ os, matchIndexL cs im = .ok os ∧
        List.Forall₂ (fun c o => matchIndexE c im = .ok o) cs os := by
  intro cs
  induction cs with
  | nil => intro _; exact ⟨[], rfl, List.Forall₂.nil⟩
  | cons c rest ih =>
    intro hok
    obtain ⟨o, ho⟩ := hok c (List.mem_cons_self _ _)
    obtain ⟨os, hos, hall⟩ := ih (fun c' hc' => hok c' (List.mem_cons_of_mem _ hc'))
    refine ⟨o :: os, ?_, List.Forall₂.cons ho hall⟩
    rw [matchIndexL, ho, hos]

theorem forall₂_mem_left {α β : Type} {R : α → β → Prop} :
    ∀ {l : List α} {l' : List β}, List.Forall₂ R l l' → ∀ {a}, a ∈ l → ∃ b ∈ l', R a b := by
  intro l l' h
  induction h with
  | nil => intro a ha; cases ha
  | cons hr _ ih =>
    intro a ha
    rcases List.mem_cons.mp ha with ha | ha
    · subst ha; exact ⟨_, List.mem_cons_self _ _, hr⟩
    · obtain ⟨b, hb, hrb⟩ := ih ha
      exact ⟨b, List.mem_cons_of_mem _ hb, hrb⟩

theorem length_filterMap_ne_of_none {α : Type} :
    ∀ os : List (Option α), none ∈ os → (os.filterMap id).length ≠ os.length := by
  intro os
  induction os with
  | nil => intro h; cases h
  | cons o rest ih =>
    intro hmem
    have hle : ∀ l : List (Option α), (l.filterMap id).length ≤ l.length := by
      intro l
      induction l with
      | nil => simp
      | cons x xs ihx => cases x <;> simp [List.filterMap_cons] <;> omega
    cases o with
    | none =>
      have hrw : ((none :: rest : List (Option α)).filterMap id) = rest.filterMap id := by
        simp
      rw [hrw, List.length_cons]
      have := hle rest
      omega
    | some a =>
      rcases List.mem_cons.mp hmem with h | h
      · cases h
      · have hrw : ((some a :: rest : List (Option α)).filterMap id) =
            a :: rest.filterMap id := by simp
        rw [hrw, List.length_cons, List.length_cons]
        have := ih h
        omega

theorem mem_filterMap_id_of_some {α : Type} (os : List (Option α)) (a : α)
    (h : some a ∈ os) : a ∈ os.filterMap id :=
  List.mem_filterMap.mpr ⟨some a, h, rfl⟩

/-- The qualifying-key relation exactly as the claim states it: equality
for EQ, strict/non-strict lexicographic comparisons of the key against
the encoded literal for the range operators. -/
def keyRelSpec (op : Op) (e k : Bytes) : Prop :=
  match op with
  | .eq => k = e
  | .gt => blt e k = true
  | .gte => blt k e = false
  | .lt => blt k e = true
  | .lte => blt e k = false

theorem keyRelSpec_iff_keySat (op : Op) (e k : Bytes) :
    keyRelSpec op e k ↔ keySat op e k = true := by
  cases op <;> simp [keyRelSpec, keySat, Bool.not_eq_true']

/-! ### `table/table.go`: `RecordBuffer` -/

/-- Error of the table layer (`table.ErrRecordNotFound`). -/
inductive TableErr where
  | recordNotFound
deriving DecidableEq

/-- Modelled from the spec: the ordered rowid→record map
`table/internal.Tree` (a vendored B-tree whose source is not in the
snapshot) is modelled by its association list of entries; `Get`, `Set`
and `Delete` have the usual keyed-map contract, with `Delete` reporting
whether the key was present and leaving the map unchanged otherwise. -/
def treeGet (t : List (Bytes × Rec)) (k : Bytes) : Option Rec :=
  match t with
  | [] => none
  | (k', r) :: rest => if k' = k then some r else treeGet rest k

def treeDelete (t : List (Bytes × Rec)) (k : Bytes) : List (Bytes × Rec) × Bool :=
  match t with
  | [] => ([], false)
  | (k', r) :: rest =>
    if k' = k then (rest, true)
    else
      let (rest', ok) := treeDelete rest k
      ((k', r) :: rest', ok)

/-- Model of `table.RecordBuffer`: a lazily allocated tree of records.
`tree = none` models the Go zero value whose `*b.Tree` pointer is still
`nil`. -/
structure RecordBuffer where
  tree : Option (List (Bytes × Rec))
  counter : Int

/-- The row ids currently stored in the buffer. -/
def RecordBuffer.keys (rb : RecordBuffer) : List Bytes :=
  (rb.tree.getD []).map (fun p => p.1)

/-- Model of `RecordBuffer.Record`: it lazily allocates the nil tree,
then looks the row id up, returning `ErrRecordNotFound` on a miss. -/
def RecordBuffer.record (rb : RecordBuffer) (rowid : Bytes) : Except TableErr Rec :=
  match treeGet (rb.tree.getD []) rowid with
  | none => .error .recordNotFound
  | some r => .ok r

/-- Model of `RecordBuffer.Delete`: unlike every other method it does
**not** lazily allocate the tree; on the zero value it calls `Delete` on
a nil `*b.Tree`, a nil-pointer dereference.  The outer `none` models
that panic; on an allocated tree, a missing row id yields
`ErrRecordNotFound` with the buffer unchanged. -/
def RecordBuffer.delete (rb : RecordBuffer) (rowid : Bytes) :
    Option (Except TableErr RecordBuffer) :=
  match rb.tree with
  | none => none
  | some t =>
    let (t', ok) := treeDelete t rowid
    if ok then some (.ok { rb with tree := some t' })
    else some (.error .recordNotFound)

theorem treeGet_eq_none_of_not_mem (k : Bytes) :
    ∀ t : List (Bytes × Rec), k ∉ t.map (fun p => p.1) → treeGet t k = none := by
  intro t
  induction t with
  | nil => intro _; rfl
  | cons p rest ih =>
    intro h
    rw [List.map_cons, List.mem_cons] at h
    push_neg at h
    rw [treeGet, if_neg (fun he => h.1 he.symm)]
    exact ih h.2

theorem treeDelete_of_not_mem (k : Bytes) :
    ∀ t : List (Bytes × Rec), k ∉ t.map (fun p => p.1) → treeDelete t k = (t, false) := by
  intro t
  induction t with
  | nil => intro _; rfl
  | cons p rest ih =>
    intro h
    rw [List.map_cons, List.mem_cons] at h
    push_neg at h
    rw [treeDelete, if_neg (fun he => h.1 he.symm), ih h.2]

/-! ### The SELECT statement parser (`select_test.go` scenarios) -/

/-- Tokens of the SELECT grammar fragment the scenarios exercise. -/
inductive Tok where
  | selectT
  | star
  | fromT
  | whereT
  | limitT
  | offsetT
  | comma
  | eqT
  | ident (s : String)
  | num (i : Int)
deriving DecidableEq

/-- The parsed `selectStmt`: field selectors (empty for `*`), table name,
optional WHERE equality, optional LIMIT and OFFSET expressions. -/
structure SelectStmt where
  fieldSelectors : List String
  tableName : String
  whereExpr : Option (String × Int)
  limitExpr : Option Int
  offsetExpr : Option Int
deriving DecidableEq

def parseMoreFields : List Tok → List String × List Tok
  | .comma :: .ident s :: rest =>
    let (ss, r) := parseMoreFields rest
    (s :: ss, r)
  | rest => ([], rest)

def parseFields : List Tok → Except String (List String × List Tok)
  | .star :: rest => .ok ([], rest)
  | .ident s :: rest =>
    let (ss, r) := parseMoreFields rest
    .ok (s :: ss, r)
  | _ => .error "expected field list"

/-- Modelled from the spec: the SELECT parser (its source is not in the
snapshot; the grammar follows the parser scenarios of `select_test.go`).
Clauses are consumed strictly in the order
`SELECT fields FROM table [WHERE field = lit] [LIMIT lit] [OFFSET lit]`;
tokens left over after the OFFSET clause — such as a LIMIT following an
OFFSET — are a parse error. -/
def parseSelect (toks : List Tok) : Except String SelectStmt := do
  let rest ← match toks with
    | .selectT :: rest => pure rest
    | _ => .error "expected SELECT"
  let (fs, rest) ← parseFields rest
  let rest ← match rest with
    | .fromT :: rest => pure rest
    | _ => .error "expected FROM"
  let (tbl, rest) ← match rest with
    | .ident t :: rest => pure (t, rest)
    | _ => .error "expected table name"
  let (w, rest) ← match rest with
    | .whereT :: .ident f :: .eqT :: .num n :: rest => pure (some (f, n), rest)
    | .whereT :: _ => .error "malformed WHERE clause"
    | rest => pure (none, rest)
  let (l, rest) ← match rest with
    | .limitT :: .num n :: rest => pure (some n, rest)
    | .limitT :: _ => .error "malformed LIMIT clause"
    | rest => pure (none, rest)
  let (o, rest) ← match rest with
    | .offsetT :: .num n :: rest => pure (some n, rest)
    | .offsetT :: _ => .error "malformed OFFSET clause"
    | rest => pure (none, rest)
  match rest with
  | [] => pure ⟨fs, tbl, w, l, o⟩
  | _ => .error "unexpected tokens after statement"

/-- Token stream of `SELECT * FROM test WHERE age = 10 OFFSET 20 LIMIT 10`. -/
def toksOffsetThenLimit : List Tok :=
  [.selectT, .star, .fromT, .ident "test", .whereT, .ident "age", .eqT, .num 10,
   .offsetT, .num 20, .limitT, .num 10]

/-- Token stream of `SELECT * FROM test WHERE age = 10 LIMIT 10 OFFSET 20`. -/
def toksLimitThenOffset : List Tok :=
  [.selectT, .star, .fromT, .ident "test", .whereT, .ident "age", .eqT, .num 10,
   .limitT, .num 10, .offsetT, .num 20]

/-! ### Claim theorems -/

/-- The record stored under row id `a` = `[97]` in the test fixtures:
age 3, team LOSC. -/
def recA : Rec := [("age", Value.vInt 3), ("team", Value.vStr [76, 79, 83, 67])]

/-- The record stored under row id `c` = `[99]` in the test fixtures:
age 10, team PSG. -/
def recC : Rec := [("age", Value.vInt 10), ("team", Value.vStr [80, 83, 71])]

theorem typedFaithful_recA : TypedFaithful imTest recA [97] := by
  intro f idx h
  simp only [imTest, imLookup] at h
  by_cases h1 : "age" = f
  · rw [if_pos h1] at h
    injection h with h
    subst h
    subst h1
    rw [show recField recA "age" = some (Value.vInt 3) from rfl]
    refine ⟨by decide, ?_⟩
    intro k
    constructor
    · intro hk
      simp only [ageIdx, List.mem_cons, List.not_mem_nil, or_false, Prod.mk.injEq] at hk
      rcases hk with ⟨_, h2⟩ | ⟨_, h2⟩ | ⟨_, h2⟩ | ⟨h2, _⟩ | ⟨_, h2⟩ | ⟨_, h2⟩ <;>
        first
          | (exact absurd h2 (by decide))
          | (exact h2)
    · intro hk
      subst hk
      simp [ageIdx, encodeValue]
  · rw [if_neg h1] at h
    by_cases h2 : "team" = f
    · rw [if_pos h2] at h
      injection h with h
      subst h
      subst h2
      rw [show recField recA "team" = some (Value.vStr [76, 79, 83, 67]) from rfl]
      refine ⟨trivial, ?_⟩
      intro k
      constructor
      · intro hk
        simp only [teamIdx, List.mem_cons, List.not_mem_nil, or_false, Prod.mk.injEq] at hk
        rcases hk with ⟨_, h3⟩ | ⟨h3, _⟩ | ⟨_, h3⟩ | ⟨_, h3⟩ | ⟨_, h3⟩ | ⟨_, h3⟩ <;>
          first
            | (exact absurd h3 (by decide))
            | (exact h3)
      · intro hk
        subst hk
        simp [teamIdx, encodeValue]
    · rw [if_neg h2] at h
      cases h

/-- The mixed conjunction of the test scenario `>8 && non index matcher`:
an index-backed comparator next to a child that only implements `Match`. -/
def pMixAnd : Expr := .and [.cmp "age" .gt (Value.vInt 8), .ext simpleTrue]

/-- C1, counterexample.  At the And tree `age > 8 AND simpleMatcher`
(whose only referenced field, `age`, is indexed), the record `c` with
age 10 and row id `[99]`: `MatchIndex` returns `Some(empty_set)` while
`Match` returns true, so `Match(R) = (rowid(R) ∈ S)` fails exactly in
the non-index-backed-child case the claim singles out. -/
theorem C1_counterexample :
    matchIndexE pMixAnd imTest = .ok (some RBSet.empty) ∧
    matchExprE pMixAnd recC = .ok true ∧
    (encodeInt64 10, [99]) ∈ ageIdx ∧
    [99] ∉ RBSet.empty.l := by
  refine ⟨rfl, rfl, ?_, ?_⟩
  · simp [ageIdx]
  · simp [RBSet.empty]

/-- C1, amended.  On fully index-backed trees — every leaf a comparator
over an indexed field with a representable literal, And nodes non-empty,
no foreign matchers — and for a record faithfully indexed under `rid`
with field types matching the leaves, `MatchIndex` returns `Some S` with
`Match(R) = true ↔ rid ∈ S`.  (With a non-index-backed child the
equivalence fails and only the `Some(empty)` fallback is returned, as
the counterexample shows.) -/
theorem C1_equiv_indexBacked (P : Expr) (im : IndexMap) (R : Rec) (rid : Bytes)
    (hb : IndexBacked im P) (ht : TypesAgree R P) (hf : TypedFaithful im R rid) :
    ∃ S : RBSet, matchIndexE P im = .ok (some S) ∧
      (matchExprE P R = .ok true ↔ rid ∈ S.l) := by
  obtain ⟨S, h1, h2⟩ := c1Equiv P im R rid hb ht hf
  refine ⟨S, h1, ?_⟩
  rw [h2]
  constructor
  · intro h
    injection h with h
    exact of_decide_eq_true h
  · intro h
    rw [decide_eq_true h]

/-- The fully index-backed conjunction `age > 2 AND age < 10` of the
test scenarios. -/
def pAndRange : Expr := .and [.cmp "age" .gt (Value.vInt 2), .cmp "age" .lt (Value.vInt 10)]

theorem C1_witness :
    IndexBacked imTest pAndRange ∧ TypesAgree recA pAndRange ∧
    TypedFaithful imTest recA [97] ∧
    ∃ S : RBSet, matchIndexE pAndRange imTest = .ok (some S) ∧
      (matchExprE pAndRange recA = .ok true ↔ [97] ∈ S.l) := by
  have hb : IndexBacked imTest pAndRange := by
    simp only [pAndRange, IndexBacked, IndexBackedL]
    exact ⟨by simp, ⟨⟨ageIdx, rfl⟩, by decide⟩, ⟨⟨⟨ageIdx, rfl⟩, by decide⟩, trivial⟩⟩
  have ht : TypesAgree recA pAndRange := by
    simp only [pAndRange, TypesAgree, TypesAgreeL]
    refine ⟨?_, ?_, trivial⟩ <;>
      · intro v hv
        rw [show recField recA "age" = some (Value.vInt 3) from rfl] at hv
        injection hv with hv
        subst hv
        rfl
  exact ⟨hb, ht, typedFaithful_recA,
    C1_equiv_indexBacked pAndRange imTest recA [97] hb ht typedFaithful_recA⟩

/-- C2.  The And combinator under `MatchIndex`, with `os` the children's
results in declaration order: if no child is index-backed the And
returns `None`; if every child (of a non-empty And) is index-backed it
returns `Some` of the intersection of the children's sets; if some but
not all children are index-backed it returns `Some(empty_set)`; and if a
child errors after all earlier children succeeded, that first error is
returned as the And's error. -/
theorem C2_and_combinator (cs : List Expr) (im : IndexMap) :
    (∀ os : List (Option RBSet), matchIndexL cs im = .ok os →
      ((os.filterMap id).length = 0 → matchIndexE (.and cs) im = .ok none) ∧
      ((os.filterMap id).length ≠ 0 → (os.filterMap id).length = os.length →
        matchIndexE (.and cs) im = .ok (some (interList (os.filterMap id)))) ∧
      ((os.filterMap id).length ≠ 0 → (os.filterMap id).length ≠ os.length →
        matchIndexE (.and cs) im = .ok (some RBSet.empty))) ∧
    (∀ (pre : List Expr) (c : Expr) (post : List Expr) (e : Err),
      cs = pre ++ c :: post →
      (∀ c' ∈ pre, ∃ o, matchIndexE c' im = .ok o) →
      matchIndexE c im = .error e →
      matchIndexE (.and cs) im = .error e) := by
  constructor
  · intro os hos
    refine ⟨?_, ?_, ?_⟩
    · intro h0
      simp only [matchIndexE, hos, combineAnd]
      rw [if_pos h0]
    · intro h0 hall
      simp only [matchIndexE, hos, combineAnd]
      rw [if_neg h0, if_pos hall]
    · intro h0 hall
      simp only [matchIndexE, hos, combineAnd]
      rw [if_neg h0, if_neg hall]
  · intro pre c post e hcs hok he
    subst hcs
    simp only [matchIndexE, matchIndexL_append_error im c post e he pre hok]

/-- The conjunction `age > 10 AND age < 20` (empty intersection) and its
children's index sets. -/
def sGt10 : RBSet := scan ageIdx .gt (encodeInt64 10)

def sLt20 : RBSet := scan ageIdx .lt (encodeInt64 20)

theorem C2_witness :
    matchIndexL [.cmp "age" .gt (Value.vInt 10), .cmp "age" .lt (Value.vInt 20)] imTest =
      .ok [some sGt10, some sLt20] ∧
    matchIndexE (.and [.cmp "age" .gt (Value.vInt 10), .cmp "age" .lt (Value.vInt 20)]) imTest =
      .ok (some (interList ([some sGt10, some sLt20].filterMap id))) ∧
    matchIndexE (.ext (extFail 7)) imTest = .error (.external 7) ∧
    matchIndexE (.and [.cmp "age" .gt (Value.vInt 2), .ext (extFail 7),
      .cmp "age" .gt (Value.vInt 10)]) imTest = .error (.external 7) := by
  refine ⟨rfl, ?_, rfl, ?_⟩
  · exact ((C2_and_combinator [.cmp "age" .gt (Value.vInt 10), .cmp "age" .lt (Value.vInt 20)]
      imTest).1 [some sGt10, some sLt20] rfl).2.1 (by simp) (by simp)
  · exact (C2_and_combinator [.cmp "age" .gt (Value.vInt 2), .ext (extFail 7),
      .cmp "age" .gt (Value.vInt 10)] imTest).2 [.cmp "age" .gt (Value.vInt 2)] (.ext (extFail 7))
      [.cmp "age" .gt (Value.vInt 10)] (.external 7) rfl
      (by
        intro c' hc'
        simp only [List.mem_singleton] at hc'
        subst hc'
        exact ⟨some (scan ageIdx .gt (encodeInt64 2)), rfl⟩)
      rfl

/-- C3.  The Or combinator under `MatchIndex`, with `os` the children's
results: if every child is index-backed the Or returns `Some` of the
union of the children's sets; if any child is not index-backed it
returns `Some(empty_set)`; and the union of an empty child list is the
empty set. -/
theorem C3_or_combinator (cs : List Expr) (im : IndexMap) :
    (∀ os : List (Option RBSet), matchIndexL cs im = .ok os →
      ((∀ o ∈ os, o.isSome = true) →
        matchIndexE (.or cs) im = .ok (some (unionList (os.filterMap id)))) ∧
      (none ∈ os → matchIndexE (.or cs) im = .ok (some RBSet.empty))) ∧
    matchIndexE (.or []) im = .ok (some (unionList [])) ∧
    unionList ([] : List RBSet) = RBSet.empty := by
  refine ⟨?_, rfl, rfl⟩
  intro os hos
  constructor
  · intro hall
    have hnone : (os.any fun o => o.isNone) = false := by
      rw [List.any_eq_false]
      intro o ho
      cases o with
      | none => exact absurd (hall none ho) (by simp)
      | some a => simp
    simp only [matchIndexE, hos, combineOr, hnone, Bool.false_eq_true, if_false]
  · intro hmem
    have hsome : (os.any fun o => o.isNone) = true :=
      List.any_eq_true.mpr ⟨none, hmem, rfl⟩
    simp only [matchIndexE, hos, combineOr, hsome, if_true]

/-- The children's index sets of the disjunction `age > 8 OR age < 2`. -/
def sGt8 : RBSet := scan ageIdx .gt (encodeInt64 8)

def sLt2 : RBSet := scan ageIdx .lt (encodeInt64 2)

theorem C3_witness :
    matchIndexL [.cmp "age" .gt (Value.vInt 8), .cmp "age" .lt (Value.vInt 2)] imTest =
      .ok [some sGt8, some sLt2] ∧
    matchIndexE (.or [.cmp "age" .gt (Value.vInt 8), .cmp "age" .lt (Value.vInt 2)]) imTest =
      .ok (some (unionList ([some sGt8, some sLt2].filterMap id))) ∧
    (unionList ([some sGt8, some sLt2].filterMap id)).l = [[99], [122]] ∧
    matchIndexL [.cmp "age" .gt (Value.vInt 8), .ext simpleTrue] imTest =
      .ok [some sGt8, none] ∧
    matchIndexE (.or [.cmp "age" .gt (Value.vInt 8), .ext simpleTrue]) imTest =
      .ok (some RBSet.empty) := by
  refine ⟨rfl, ?_, rfl, rfl, ?_⟩
  · refine ((C3_or_combinator [.cmp "age" .gt (Value.vInt 8), .cmp "age" .lt (Value.vInt 2)]
      imTest).1 [some sGt8, some sLt2] rfl).1 ?_
    intro o ho
    simp only [List.mem_cons, List.not_mem_nil, or_false] at ho
    rcases ho with rfl | rfl <;> rfl
  · exact ((C3_or_combinator [.cmp "age" .gt (Value.vInt 8), .ext simpleTrue]
      imTest).1 [some sGt8, none] rfl).2 (by simp)

/-- C4.  A comparator leaf under `MatchIndex`: with no index for the
field the leaf is not index-backed (`None`); with an index, the returned
set holds exactly the row ids stored under qualifying keys — `k = enc`
for EQ, `k > enc` for GT, `k ≥ enc` for GTE, `k < enc` for LT, `k ≤ enc`
for LTE, lexicographically on encoded bytes — including every row id
under each qualifying key of a non-unique index. -/
theorem C4_leaf_matchIndex (f : String) (op : Op) (lit : Value) (im : IndexMap) :
    (imLookup im f = none → matchIndexE (.cmp f op lit) im = .ok none) ∧
    (∀ idx, imLookup im f = some idx →
      ∃ S : RBSet, matchIndexE (.cmp f op lit) im = .ok (some S) ∧
        ∀ r, r ∈ S.l ↔ ∃ k, (k, r) ∈ idx ∧ keyRelSpec op (encodeValue lit) k) := by
  constructor
  · intro h
    simp [matchIndexE, h]
  · intro idx h
    refine ⟨scan idx op (encodeValue lit), by simp [matchIndexE, h], ?_⟩
    intro r
    rw [mem_scan]
    constructor
    · rintro ⟨k, hk, hsat⟩
      exact ⟨k, hk, (keyRelSpec_iff_keySat op _ k).mpr hsat⟩
    · rintro ⟨k, hk, hrel⟩
      exact ⟨k, hk, (keyRelSpec_iff_keySat op _ k).mp hrel⟩

theorem C4_witness :
    imLookup imTest "age" = some ageIdx ∧
    imLookup imTest "height" = none ∧
    matchIndexE (.cmp "height" .eq (Value.vInt 2)) imTest = .ok none ∧
    ∃ S : RBSet, matchIndexE (.cmp "age" .eq (Value.vInt 2)) imTest = .ok (some S) ∧
      ∀ r, r ∈ S.l ↔ ∃ k, (k, r) ∈ ageIdx ∧ keyRelSpec .eq (encodeValue (Value.vInt 2)) k := by
  refine ⟨rfl, rfl, ?_, ?_⟩
  · exact (C4_leaf_matchIndex "height" .eq (Value.vInt 2) imTest).1 rfl
  · exact (C4_leaf_matchIndex "age" .eq (Value.vInt 2) imTest).2 ageIdx rfl

/-- C5.  A comparator leaf's `Match` against a record on which the
leaf's named field is absent returns `(false, nil)` — false, no error —
for every operator and every literal. -/
theorem C5_missing_field (f : String) (op : Op) (lit : Value) (R : Rec)
    (h : recField R f = none) : matchExprE (.cmp f op lit) R = .ok false := by
  simp [matchExprE, h]

theorem C5_witness :
    recField recA "salary" = none ∧
    matchExprE (.cmp "salary" .eq (Value.vInt 1)) recA = .ok false ∧
    matchExprE (.cmp "salary" .gt (Value.vInt 1)) recA = .ok false ∧
    matchExprE (.cmp "salary" .gte (Value.vStr [97])) recA = .ok false ∧
    matchExprE (.cmp "salary" .lt (Value.vStr [97])) recA = .ok false ∧
    matchExprE (.cmp "salary" .lte (Value.vInt 1)) recA = .ok false :=
  ⟨rfl, C5_missing_field _ _ _ _ rfl, C5_missing_field _ _ _ _ rfl, C5_missing_field _ _ _ _ rfl,
    C5_missing_field _ _ _ _ rfl, C5_missing_field _ _ _ _ rfl⟩

/-- C6.  Whenever `MatchIndex` returns a row-id set, traversing it in
order yields the row ids in strictly ascending lexicographic order on
row-id bytes, for every predicate tree and index map. -/
theorem C6_sorted_output (P : Expr) (im : IndexMap) (S : RBSet)
    (_h : matchIndexE P im = .ok (some S)) :
    S.l.Pairwise (fun a b => blt a b = true) :=
  S.sorted

/-- The disjunction `age > 0 OR age < 11`, whose two branches each yield
all six row ids: child order and index insertion order do not affect the
ascending result. -/
def pOrFull : Expr := .or [.cmp "age" .gt (Value.vInt 0), .cmp "age" .lt (Value.vInt 11)]

/-- The row-id set `pOrFull` evaluates to. -/
def orFullSet : RBSet :=
  unionList [scan ageIdx .gt (encodeInt64 0), scan ageIdx .lt (encodeInt64 11)]

theorem C6_witness :
    matchIndexE pOrFull imTest = .ok (some orFullSet) ∧
    orFullSet.l = [[97], [98], [99], [120], [121], [122]] ∧
    orFullSet.l.Pairwise (fun a b => blt a b = true) :=
  ⟨rfl, rfl, C6_sorted_output pOrFull imTest orFullSet rfl⟩

/-- C7.  Whenever `MatchIndex` returns a row-id set, each row id appears
at most once in it, even when reachable through several keys of a
non-unique index or contributed by several children of a combinator. -/
theorem C7_dedup_output (P : Expr) (im : IndexMap) (S : RBSet)
    (_h : matchIndexE P im = .ok (some S)) : S.l.Nodup := by
  refine S.sorted.imp ?_
  intro a b hab heq
  subst heq
  have h' : blt a a = true := hab
  rw [blt_irrefl] at h'
  exact Bool.false_ne_true h'

/-- The disjunction `age > 1 OR age ≤ 4`: row ids `x`, `y`, `a` are
contributed by both children, and `x`, `y` sit under the single
non-unique key 2; each appears once in the result. -/
def pOrOverlap : Expr := .or [.cmp "age" .gt (Value.vInt 1), .cmp "age" .lte (Value.vInt 4)]

/-- The row-id set `pOrOverlap` evaluates to. -/
def orOverlapSet : RBSet :=
  unionList [scan ageIdx .gt (encodeInt64 1), scan ageIdx .lte (encodeInt64 4)]

theorem C7_witness :
    matchIndexE pOrOverlap imTest = .ok (some orOverlapSet) ∧
    orOverlapSet.l = [[97], [98], [99], [120], [121], [122]] ∧
    orOverlapSet.l.Nodup :=
  ⟨rfl, rfl, C7_dedup_output pOrOverlap imTest orOverlapSet rfl⟩

/-- C8.  Parsing `SELECT * FROM test WHERE age = 10 OFFSET 20 LIMIT 10`
fails, while `SELECT * FROM test WHERE age = 10 LIMIT 10 OFFSET 20`
parses into a statement carrying both the limit and the offset
expressions. -/
theorem C8_parser_offset_limit :
    (parseSelect toksOffsetThenLimit).toOption = none ∧
    parseSelect toksLimitThenOffset =
      .ok ⟨[], "test", some ("age", 10), some 10, some 20⟩ :=
  ⟨rfl, rfl⟩

/-- C9.  A child that implements only `Match` (no index-matching
interface) is treated as not index-backed: an And or Or over such a
child together with at least one index-backed child — all children
evaluating without error — returns the empty candidate set with a nil
error. -/
theorem C9_nonindex_child (cs : List Expr) (im : IndexMap) (m : ExtMatcher)
    (hm : m.matchIndexFn = none) (hmem : Expr.ext m ∈ cs)
    (hok : ∀ c ∈ cs, ∃ o, matchIndexE c im = .ok o)
    (hsome : ∃ c ∈ cs, ∃ S : RBSet, matchIndexE c im = .ok (some S)) :
    matchIndexE (.and cs) im = .ok (some RBSet.empty) ∧
    matchIndexE (.or cs) im = .ok (some RBSet.empty) := by
  obtain ⟨os, hos, hall⟩ := matchIndexL_ok_of_children im cs hok
  have hext : matchIndexE (.ext m) im = .ok none := by
    simp [matchIndexE, hm]
  have hnone : none ∈ os := by
    obtain ⟨o, ho, hro⟩ := forall₂_mem_left hall hmem
    rw [hext] at hro
    injection hro with hro
    rwa [← hro] at ho
  obtain ⟨c, hc, S, hS⟩ := hsome
  have hSmem : some S ∈ os := by
    obtain ⟨o, ho, hro⟩ := forall₂_mem_left hall hc
    rw [hS] at hro
    injection hro with hro
    rwa [← hro] at ho
  constructor
  · have h0 : (os.filterMap id).length ≠ 0 := by
      have := mem_filterMap_id_of_some os S hSmem
      intro hlen
      rw [List.length_eq_zero] at hlen
      rw [hlen] at this
      cases this
    have hne := length_filterMap_ne_of_none os hnone
    simp only [matchIndexE, hos, combineAnd]
    rw [if_neg h0, if_neg hne]
  · have hany : (os.any fun o => o.isNone) = true :=
      List.any_eq_true.mpr ⟨none, hnone, rfl⟩
    simp only [matchIndexE, hos, combineOr, hany, if_true]

theorem C9_witness :
    matchIndexE (.and [.cmp "age" .gt (Value.vInt 8), .ext simpleTrue]) imTest =
      .ok (some RBSet.empty) ∧
    matchIndexE (.or [.cmp "age" .gt (Value.vInt 8), .ext simpleTrue]) imTest =
      .ok (some RBSet.empty) := by
  refine C9_nonindex_child [.cmp "age" .gt (Value.vInt 8), .ext simpleTrue] imTest simpleTrue
    rfl (by simp) ?_ ?_
  · intro c hc
    simp only [List.mem_cons, List.not_mem_nil, or_false] at hc
    rcases hc with rfl | rfl
    · exact ⟨some sGt8, rfl⟩
    · exact ⟨none, rfl⟩
  · exact ⟨.cmp "age" .gt (Value.vInt 8), by simp, sGt8, rfl⟩

/-- C10.  Evaluations of `RecordBuffer` at the claim's inputs: on a
fresh (zero-value) buffer `Record` misses with `ErrRecordNotFound`; on a
buffer holding one record under row id `[2]`, both `Record` and `Delete`
of the absent row id `[1]` return `ErrRecordNotFound` and the stored
entries are untouched; but `Delete` on the fresh buffer hits the nil
internal tree — the modelled panic (`none`) — instead of returning
`ErrRecordNotFound` as the claim states. -/
theorem C10_recordbuffer_eval :
    RecordBuffer.record ⟨none, 0⟩ [1] = .error .recordNotFound ∧
    RecordBuffer.record ⟨some [([2], recA)], 0⟩ [1] = .error .recordNotFound ∧
    RecordBuffer.delete ⟨some [([2], recA)], 0⟩ [1] = some (.error .recordNotFound) ∧
    treeDelete [([2], recA)] [1] = ([([2], recA)], false) ∧
    RecordBuffer.delete ⟨none, 0⟩ [1] = none :=
  ⟨rfl, rfl, rfl, rfl, rfl⟩

end Genji
